import Mathlib

set_option maxHeartbeats 1000000

namespace Waterhy

/-! Verification of the waterhy repository: `im.py` (river topology
configuration with cycle detection) and `inflowload.py` (spreadsheet
range inference and inflow/PV mapping serialization).

Embedding conventions:
* Spreadsheet cell values are `Option String` (`none` = empty cell,
  `str(v)` is the identity on the modeled values); Python `.strip()`
  is the explicit `strip` function below.
* `load_workbook` is modeled by an environment `String → Option Workbook`
  (`none` = the exception branch of the `try`).
* Qt widget state that the code reads is modeled by plain record fields
  holding the values the accessors would return.
* Dates are proleptic-Gregorian day ordinals (`dateOrdinal`, matching
  Python `date.toordinal`), so `+ k` means "plus k days"; date-times
  are hour counts (`dtHours`), so `+ k` means "plus k hours".
* Python truthiness on optional strings / ints is modeled explicitly
  (`none` and `""` are falsy, index `0` is falsy).
-/

/-! ## inflowload.py: worksheet model and column scan -/

structure Sheet where
  max_row : Option Nat
  cell : Nat → Nat → Option String

structure Workbook where
  sheetnames : List String
  sheet : String → Sheet

/-- Python `str.strip()`: drop leading and trailing whitespace. -/
def isPySpace (c : Char) : Bool :=
  c = ' ' ∨ c = '\t' ∨ c = '\n' ∨ c = '\r' ∨ c = '\x0b' ∨ c = '\x0c'

def strip (s : String) : String :=
  String.mk (((s.data.dropWhile isPySpace).reverse.dropWhile isPySpace).reverse)

/-- `v is not None and str(v).strip() != ""` for a cell value. -/
def cellNonEmpty (v : Option String) : Bool :=
  match v with
  | none => false
  | some s => decide (strip s ≠ "")

/-- The loop `for r in range(max_row, 0, -1)` of `find_last_non_empty_row`:
scan rows `r, r-1, ..., 1` and return the first non-empty one. -/
def scanColUp (sh : Sheet) (col : Nat) : Nat → Option Nat
  | 0 => none
  | r + 1 =>
    if cellNonEmpty (sh.cell (r + 1) col) then some (r + 1) else scanColUp sh col r

/-- `find_last_non_empty_row(xlsx_path, sheet_name, col_index)`:
open the workbook (the `except` branch and a failed open both yield `none`),
reject a missing sheet, then scan the column bottom-up from `max_row or 0`. -/
def find_last_non_empty_row (env : String → Option Workbook)
    (xlsx_path sheet_name : String) (col_index : Nat) : Option Nat :=
  match env xlsx_path with
  | none => none
  | some wb =>
    if sheet_name ∈ wb.sheetnames then
      scanColUp (wb.sheet sheet_name) col_index ((wb.sheet sheet_name).max_row.getD 0)
    else none

/-- Instrumented variant of `find_last_non_empty_row` that additionally
reports how many workbook handles opened by the scan are still open when
the function exits.  The source opens the workbook with
`load_workbook(..., read_only=True, ...)` and contains no `close()` (and no
`with` block), so a successfully opened handle is still open on every
exit path; only the failed-open branch exits with zero open handles. -/
def find_last_non_empty_row_tracked (env : String → Option Workbook)
    (xlsx_path sheet_name : String) (col_index : Nat) : Option Nat × Nat :=
  match env xlsx_path with
  | none => (none, 0)
  | some wb =>
    if sheet_name ∈ wb.sheetnames then
      (scanColUp (wb.sheet sheet_name) col_index ((wb.sheet sheet_name).max_row.getD 0), 1)
    else (none, 1)

/-! ## Date arithmetic (Python `date.toordinal` / `timedelta`) -/

def isLeapYear (y : Nat) : Bool :=
  y % 4 == 0 && (y % 100 != 0 || y % 400 == 0)

def daysBeforeMonth (leap : Bool) (m : Nat) : Nat :=
  [0, 31, 59, 90, 120, 151, 181, 212, 243, 273, 304, 334].getD (m - 1) 0 +
    (if leap && decide (2 < m) then 1 else 0)

/-- Day ordinal of a proleptic-Gregorian calendar date, as in Python
`datetime.date.toordinal`. -/
def dateOrdinal (y m d : Nat) : Nat :=
  365 * (y - 1) + (y - 1) / 4 - (y - 1) / 100 + (y - 1) / 400 +
    daysBeforeMonth (isLeapYear y) m + d

/-- Hour count of a date-time with whole hours. -/
def dtHours (y m d h : Nat) : Nat :=
  dateOrdinal y m d * 24 + h

/-! ## inflowload.py: reservoir rows (daily) -/

/-- The end label of a row: `"—"`, `"无法判定/无数据"`, or a computed
end date / end date-time. -/
inductive EndMark where
  | dash
  | noData
  | value (v : Nat)
deriving DecidableEq

/-- State of a `ReservoirRow` widget as read by its accessors. -/
structure ReservoirRow where
  river_name : String
  reservoir_name : String
  file_path : String
  last_wb_path : Option String
  sheet_name : String
  col_data : Option (String × Nat)
  start_row : Nat
  start_date : Nat
deriving DecidableEq

/-- `ReservoirRow._auto_calc_end`: the end label it leaves behind.
`if not self._last_wb_path` is Python truthiness (`None` or `""`);
`if not sheet or not col_index` likewise (`col_index` absent or `0`). -/
def reservoirAutoEnd (env : String → Option Workbook) (row : ReservoirRow) : EndMark :=
  match row.last_wb_path with
  | none => .dash
  | some p =>
    if p = "" then .dash
    else
      match row.col_data with
      | none => .dash
      | some (_, ci) =>
        if (strip row.sheet_name) = "" ∨ ci = 0 then .dash
        else
          match find_last_non_empty_row env p (strip row.sheet_name) ci with
          | none => .noData
          | some lr =>
            if lr < row.start_row then .noData
            else .value (row.start_date + max (lr - row.start_row + 1 - 1) 0)

/-- The `record_count` computation of `ReservoirRow.to_mapping`. -/
def reservoirRecordCount (env : String → Option Workbook) (row : ReservoirRow) : Option Nat :=
  match row.last_wb_path, row.col_data with
  | some p, some (_, ci) =>
    if p ≠ "" ∧ ci ≠ 0 ∧ (strip row.sheet_name) ≠ "" then
      match find_last_non_empty_row env p (strip row.sheet_name) ci with
      | some lr => if row.start_row ≤ lr then some (lr - row.start_row + 1) else none
      | none => none
    else none
  | _, _ => none

/-- The dictionary returned by `ReservoirRow.to_mapping`. -/
structure ReservoirMapping where
  time_scale : String
  river_name : String
  reservoir_name : String
  file_path : String
  sheet_name : String
  column_letter : Option String
  column_index : Option Nat
  start_row : Nat
  start_date : Nat
  end_date : Option Nat
  record_count : Option Nat
deriving DecidableEq

/-- `ReservoirRow.to_mapping`.  `end_date` is the end label unless the
label is one of the two placeholder strings. -/
def reservoirToMapping (env : String → Option Workbook) (row : ReservoirRow) :
    ReservoirMapping where
  time_scale := "daily"
  river_name := row.river_name
  reservoir_name := row.reservoir_name
  file_path := (strip row.file_path)
  sheet_name := (strip row.sheet_name)
  column_letter := row.col_data.map Prod.fst
  column_index := row.col_data.map Prod.snd
  start_row := row.start_row
  start_date := row.start_date
  end_date :=
    match reservoirAutoEnd env row with
    | .value v => some v
    | _ => none
  record_count := reservoirRecordCount env row

/-- Truthiness of an optional string (`None` and `""` are falsy). -/
def strTruthy (s : Option String) : Bool :=
  match s with
  | none => false
  | some v => decide (v ≠ "")

/-- `ReservoirRow.is_valid`: with a non-empty file path, `sheet_name`,
`column_letter`, `column_index` and `start_date` must all be truthy.
The start date is rendered as `"yyyy-MM-dd"` and is never empty, so its
conjunct is the constant `true`. -/
def reservoirIsValid (env : String → Option Workbook) (row : ReservoirRow) : Bool :=
  let m := reservoirToMapping env row
  if m.file_path ≠ "" then
    decide (m.sheet_name ≠ "") && strTruthy m.column_letter &&
      (match m.column_index with
       | some i => decide (i ≠ 0)
       | none => false) && true
  else true

/-! ## inflowload.py: PV rows (hourly) -/

/-- State of a `PVRow` widget as read by its accessors.
`start_datetime` is an hour count (see `dtHours`). -/
structure PVRow where
  pv_name : String
  file_path : String
  last_wb_path : Option String
  sheet_name : String
  col_data : Option (String × Nat)
  start_row : Nat
  start_datetime : Nat
deriving DecidableEq

/-- `PVRow._auto_calc_end` (hour arithmetic). -/
def pvAutoEnd (env : String → Option Workbook) (row : PVRow) : EndMark :=
  match row.last_wb_path with
  | none => .dash
  | some p =>
    if p = "" then .dash
    else
      match row.col_data with
      | none => .dash
      | some (_, ci) =>
        if (strip row.sheet_name) = "" ∨ ci = 0 then .dash
        else
          match find_last_non_empty_row env p (strip row.sheet_name) ci with
          | none => .noData
          | some lr =>
            if lr < row.start_row then .noData
            else .value (row.start_datetime + max (lr - row.start_row + 1 - 1) 0)

/-- The `record_count` computation of `PVRow.to_mapping`. -/
def pvRecordCount (env : String → Option Workbook) (row : PVRow) : Option Nat :=
  match row.last_wb_path, row.col_data with
  | some p, some (_, ci) =>
    if p ≠ "" ∧ ci ≠ 0 ∧ (strip row.sheet_name) ≠ "" then
      match find_last_non_empty_row env p (strip row.sheet_name) ci with
      | some lr => if row.start_row ≤ lr then some (lr - row.start_row + 1) else none
      | none => none
    else none
  | _, _ => none

/-- The dictionary returned by `PVRow.to_mapping`. -/
structure PVMapping where
  time_scale : String
  pv_name : String
  file_path : String
  sheet_name : String
  column_letter : Option String
  column_index : Option Nat
  start_row : Nat
  start_datetime : Nat
  end_datetime : Option Nat
  record_count : Option Nat
deriving DecidableEq

/-- `PVRow.to_mapping` (`pv_name` falls back to `"PV"` when blank). -/
def pvToMapping (env : String → Option Workbook) (row : PVRow) : PVMapping where
  time_scale := "hourly"
  pv_name := if (strip row.pv_name) = "" then "PV" else (strip row.pv_name)
  file_path := (strip row.file_path)
  sheet_name := (strip row.sheet_name)
  column_letter := row.col_data.map Prod.fst
  column_index := row.col_data.map Prod.snd
  start_row := row.start_row
  start_datetime := row.start_datetime
  end_datetime :=
    match pvAutoEnd env row with
    | .value v => some v
    | _ => none
  record_count := pvRecordCount env row

/-- `PVRow.is_valid` (the rendered start date-time string is never empty). -/
def pvIsValid (env : String → Option Workbook) (row : PVRow) : Bool :=
  let m := pvToMapping env row
  if m.file_path ≠ "" then
    decide (m.sheet_name ≠ "") && strTruthy m.column_letter &&
      (match m.column_index with
       | some i => decide (i ≠ 0)
       | none => false) && true
  else true

/-- "No qualifying row at or after the start row": every determinate
answer of the scan (with this row's locator) lies strictly before the
start row.  Vacuously covers an unopenable workbook, a missing sheet,
an unset locator, and an all-blank column. -/
def noQualifyingRow (env : String → Option Workbook) (row : ReservoirRow) : Prop :=
  ∀ p l ci lr, row.last_wb_path = some p → row.col_data = some (l, ci) →
    find_last_non_empty_row env p (strip row.sheet_name) ci = some lr →
    lr < row.start_row

/-- `noQualifyingRow` for PV rows. -/
def noQualifyingRowPV (env : String → Option Workbook) (row : PVRow) : Prop :=
  ∀ p l ci lr, row.last_wb_path = some p → row.col_data = some (l, ci) →
    find_last_non_empty_row env p (strip row.sheet_name) ci = some lr →
    lr < row.start_row

/-! ## inflowload.py: MappingWindow.on_save_mapping -/

structure MappingArtifact where
  data_type : String
  reservoir_inflow_sources : List ReservoirMapping
  pv_sources : List PVMapping
deriving DecidableEq

inductive MappingSaveOutcome where
  | incomplete (label : String)
  | saved (art : MappingArtifact)
deriving DecidableEq

/-- The reservoir loop of `on_save_mapping`: the first invalid row aborts
with its reservoir name (the warning dialog), a valid row with a
non-empty file path is appended, a valid row with an empty file path is
skipped. -/
def collectInflow (env : String → Option Workbook) :
    List ReservoirRow → Except String (List ReservoirMapping)
  | [] => .ok []
  | r :: rs =>
    if reservoirIsValid env r then
      match collectInflow env rs with
      | .error e => .error e
      | .ok ms =>
        let m := reservoirToMapping env r
        .ok (if m.file_path ≠ "" then m :: ms else ms)
    else .error r.reservoir_name

/-- The PV loop of `on_save_mapping`. -/
def collectPV (env : String → Option Workbook) :
    List PVRow → Except String (List PVMapping)
  | [] => .ok []
  | r :: rs =>
    if pvIsValid env r then
      match collectPV env rs with
      | .error e => .error e
      | .ok ms =>
        let m := pvToMapping env r
        .ok (if m.file_path ≠ "" then m :: ms else ms)
    else .error r.pv_name

/-- `MappingWindow.on_save_mapping`: collect reservoir rows, then (when the
PV checkbox is enabled) PV rows; any invalid row aborts the whole handler
before anything is written; otherwise `save_mapping` receives exactly the
collected entries. -/
def on_save_mapping (env : String → Option Workbook) (data_type_text : String)
    (rows : List ReservoirRow) (pv_enabled : Bool) (pvRows : List PVRow) :
    MappingSaveOutcome :=
  match collectInflow env rows with
  | .error name => .incomplete name
  | .ok infl =>
    match (if pv_enabled then collectPV env pvRows else .ok []) with
    | .error name => .incomplete name
    | .ok pvs => .saved ⟨data_type_text, infl, pvs⟩

/-! ## im.py: data model and serialization -/

structure Tributary where
  tributary_name : String
  insertion_river : String
  insertion_point : String
  location : String
deriving DecidableEq

structure RiverSystem where
  river_name : String
  is_main_stream : Bool
  reservoirs : List String
  tributaries : List Tributary
deriving DecidableEq

structure ReservoirConfig where
  rivers : List RiverSystem
  data_type : String
deriving DecidableEq

/-- The dictionaries produced by the `to_dict` serializers (the shape that
`json.dump` writes and `json.load` hands back to `inflowload.py`). -/
structure TributaryDict where
  tributary_name : String
  insertion_river : String
  insertion_point : String
  location : String
deriving DecidableEq

structure RiverDict where
  river_name : String
  is_main_stream : Bool
  reservoirs : List String
  tributaries : List TributaryDict
deriving DecidableEq

structure ConfigDict where
  rivers : List RiverDict
  data_type : String
deriving DecidableEq

def Tributary.to_dict (t : Tributary) : TributaryDict :=
  ⟨t.tributary_name, t.insertion_river, t.insertion_point, t.location⟩

def RiverSystem.to_dict (r : RiverSystem) : RiverDict :=
  ⟨r.river_name, r.is_main_stream, r.reservoirs, r.tributaries.map Tributary.to_dict⟩

def ReservoirConfig.to_dict (c : ReservoirConfig) : ConfigDict :=
  ⟨c.rivers.map RiverSystem.to_dict, c.data_type⟩

/-- `extract_reservoir_list` from inflowload.py: flatten the loaded
topology dictionary into ordered (river_name, reservoir_name) pairs. -/
def extract_reservoir_list (cfg : ConfigDict) : List (String × String) :=
  cfg.rivers.foldr
    (fun r acc => r.reservoirs.map (fun res => (r.river_name, res)) ++ acc) []

/-- The ordered (river_name, reservoir_name) pairs of an in-memory
topology, before serialization. -/
def topologyPairs (c : ReservoirConfig) : List (String × String) :=
  c.rivers.foldr
    (fun r acc => r.reservoirs.map (fun res => (r.river_name, res)) ++ acc) []

/-! ## im.py: ConfigWindow._has_cycle (3-color depth-first search)

The Python recursion carries no explicit bound; the embedding passes a
fuel argument and `has_cycle` supplies one node per possible recursion
depth (`(graphKeys edges).length`).  The lemmas below show the fuel-out
branch is unreachable under that supply, so the embedding computes what
the unbounded recursion computes. -/

inductive Color where
  | WHITE
  | GRAY
  | BLACK
deriving DecidableEq

variable {α : Type} [DecidableEq α]

/-- `graph.setdefault(a, []).append(b); graph.setdefault(b, [])`:
the adjacency list of `u` is the list of targets of edges out of `u`, in
edge order. -/
def adjOf (edges : List (α × α)) : α → List α :=
  fun u => (edges.filter (fun p => decide (p.1 = u))).map Prod.snd

def addKey (ks : List α) (k : α) : List α :=
  if k ∈ ks then ks else ks ++ [k]

def graphKeysAux : List α → List (α × α) → List α
  | ks, [] => ks
  | ks, e :: es => graphKeysAux (addKey (addKey ks e.1) e.2) es

/-- The keys of the Python adjacency dict: every node appearing as an
edge source or target, in first-appearance order, without duplicates. -/
def graphKeys (edges : List (α × α)) : List α :=
  graphKeysAux [] edges

/-- The inner `for v in graph[u]` loop of `dfs`, taking the recursive
call (at one less fuel) as a function argument: a `GRAY` neighbour means
a cycle; a `WHITE` neighbour is searched recursively; a `BLACK`
neighbour is skipped. -/
def dfsAux (f : α → (α → Color) → Bool × (α → Color)) :
    List α → (α → Color) → Bool × (α → Color)
  | [], c => (false, c)
  | v :: vs, c =>
    if c v = Color.GRAY then (true, c)
    else if c v = Color.WHITE then
      match f v c with
      | (true, c2) => (true, c2)
      | (false, c2) => dfsAux f vs c2
    else dfsAux f vs c

/-- `dfs(u)`: paint `u` `GRAY`, process its adjacency list, and paint `u`
`BLACK` on the no-cycle path. -/
def dfs (adj : α → List α) : Nat → α → (α → Color) → Bool × (α → Color)
  | 0, _, c => (false, c)
  | fuel + 1, u, c =>
    match dfsAux (fun v cc => dfs adj fuel v cc) (adj u)
        (fun x => if x = u then Color.GRAY else c x) with
    | (true, c2) => (true, c2)
    | (false, c2) => (false, fun x => if x = u then Color.BLACK else c2 x)

/-- The outer `for node in list(graph.keys())` loop of `_has_cycle`. -/
def hasCycleLoop (adj : α → List α) (fuel : Nat) :
    List α → (α → Color) → Bool
  | [], _ => false
  | n :: ns, c =>
    if c n = Color.WHITE then
      match dfs adj fuel n c with
      | (true, _) => true
      | (false, c2) => hasCycleLoop adj fuel ns c2
    else hasCycleLoop adj fuel ns c

/-- `ConfigWindow._has_cycle(edges)`. -/
def has_cycle (edges : List (α × α)) : Bool :=
  hasCycleLoop (adjOf edges) (graphKeys edges).length (graphKeys edges)
    (fun _ => Color.WHITE)

/-- The directed edge relation of an edge list. -/
def edgeStep (edges : List (α × α)) (a b : α) : Prop :=
  (a, b) ∈ edges

/-- "E contains a directed cycle": some node reaches itself by at least
one edge of E. -/
def hasDirectedCycle (edges : List (α × α)) : Prop :=
  ∃ z, Relation.TransGen (edgeStep edges) z z

/-! ## Specification-side notions for the DFS proof -/

/-- Number of `WHITE` nodes of a coloring, over the key list. -/
def whiteCount (K : List α) (c : α → Color) : Nat :=
  (K.filter (fun k => decide (c k = Color.WHITE))).length

/-- The adjacency-function edge relation. -/
def adjRel (adj : α → List α) (a b : α) : Prop :=
  b ∈ adj a

/-- Color monotonicity of one DFS step: whites only shrink, blacks only
grow. -/
def MonoAt (c c2 : α → Color) : Prop :=
  (∀ x, c2 x = Color.WHITE → c x = Color.WHITE) ∧
  (∀ x, c x = Color.BLACK → c2 x = Color.BLACK)

/-- Gray nodes of the result were already gray. -/
def GrayPres (c c2 : α → Color) : Prop :=
  ∀ x, c2 x = Color.GRAY → c x = Color.GRAY

/-- The completeness invariant: every black node has only black
successors and lies on no directed cycle. -/
def InvC (adj : α → List α) (c : α → Color) : Prop :=
  ∀ x, c x = Color.BLACK →
    (∀ v ∈ adj x, c v = Color.BLACK) ∧ ¬ Relation.TransGen (adjRel adj) x x

/-- Induction package: color monotonicity of `dfs` at a given fuel. -/
def DfsMonoSpec (K : List α) (n : Nat)
    (f : α → (α → Color) → Bool × (α → Color)) : Prop :=
  ∀ v c, v ∈ K → c v = Color.WHITE → whiteCount K c ≤ n →
    MonoAt c (f v c).2 ∧
    ((f v c).1 = false → GrayPres c (f v c).2 ∧ (f v c).2 v = Color.BLACK)

/-- Induction package: `dfs` preserves the completeness invariant on its
no-cycle exit. -/
def DfsInvSpec (adj : α → List α) (K : List α) (n : Nat)
    (f : α → (α → Color) → Bool × (α → Color)) : Prop :=
  ∀ v c, v ∈ K → c v = Color.WHITE → whiteCount K c ≤ n → InvC adj c →
    (f v c).1 = false → InvC adj (f v c).2

/-- Induction package: a `true` answer of `dfs` exhibits a directed
cycle, provided every gray node can reach the argument. -/
def DfsSoundSpec (adj : α → List α) (K : List α) (n : Nat)
    (f : α → (α → Color) → Bool × (α → Color)) : Prop :=
  ∀ v c, v ∈ K → c v = Color.WHITE → whiteCount K c ≤ n →
    (∀ g, c g = Color.GRAY → Relation.ReflTransGen (adjRel adj) g v) →
    (f v c).1 = true → ∃ z, Relation.TransGen (adjRel adj) z z

/-! ## im.py: ConfigWindow.on_save -/

/-- State of one `RiverGroup` as read by the save handler: `name` is the
value of `get_river_name()`, `insert_target` and `insert_point` are the
raw texts of the insertion widgets, `location` the combo value. -/
structure RiverGroupData where
  name : String
  is_main : Bool
  reservoirs : List String
  insert_target : String
  insert_point : String
  location : String
deriving DecidableEq

/-- `RiverGroup.get_tributary_link`: `None` for a main stem, otherwise a
`Tributary` whose point defaults to `"未指定"` when blank. -/
def RiverGroupData.link (g : RiverGroupData) : Option Tributary :=
  if g.is_main then none
  else some ⟨g.name, (strip g.insert_target),
    (if (strip g.insert_point) = "" then "未指定" else (strip g.insert_point)), g.location⟩

inductive SaveOutcome where
  | duplicate_name (name : String)
  | dangling (trib target : String)
  | cycle_error
  | saved (cfg : ReservoirConfig)
deriving DecidableEq

/-- The assembly loop of `on_save`: skip empty names, reject the first
duplicate name, record each river under its name (insertion order) and
collect tributary links in group order. -/
def buildSystems : List RiverGroupData → List (String × RiverSystem) →
    List Tributary → SaveOutcome ⊕ (List (String × RiverSystem) × List Tributary)
  | [], acc, links => Sum.inr (acc, links)
  | g :: gs, acc, links =>
    if g.name = "" then buildSystems gs acc links
    else if (acc.find? (fun p => decide (p.1 = g.name))).isSome then
      Sum.inl (SaveOutcome.duplicate_name g.name)
    else
      buildSystems gs (acc ++ [(g.name, ⟨g.name, g.is_main, g.reservoirs, []⟩)])
        (links ++ g.link.toList)

/-- `name_to_system[n]` on the association list. -/
def lookupSys (m : List (String × RiverSystem)) (n : String) : Option RiverSystem :=
  (m.find? (fun p => decide (p.1 = n))).map Prod.snd

/-- `ConfigWindow.on_save`: map the data-type text, assemble the rivers
(rejecting duplicates), reject the first dangling insertion target, run
the cycle check on the (tributary → target) edges, attach every link to
its target in link order, and emit the config in interface order. -/
def on_save (dt_text : String) (groups : List RiverGroupData) : SaveOutcome :=
  let data_type := if dt_text = "逐日" then "daily" else "hourly"
  match buildSystems groups [] [] with
  | Sum.inl e => e
  | Sum.inr (m, links) =>
    match links.find? (fun l => (lookupSys m l.insertion_river).isNone) with
    | some l => SaveOutcome.dangling l.tributary_name l.insertion_river
    | none =>
      if has_cycle (links.map (fun t => (t.tributary_name, t.insertion_river))) then
        SaveOutcome.cycle_error
      else
        SaveOutcome.saved
          ⟨groups.filterMap (fun g =>
            (lookupSys m g.name).map (fun s =>
              ⟨s.river_name, s.is_main_stream, s.reservoirs,
                links.filter (fun l => decide (l.insertion_river = s.river_name))⟩)),
            data_type⟩

/-! ## Ordered views of the on_save assembly loop (specification side) -/

/-- The non-empty river names, in interface order (the keys the assembly
loop inserts into `name_to_system`). -/
def nonEmptyNames (groups : List RiverGroupData) : List String :=
  (groups.map RiverGroupData.name).filter (fun n => decide (n ≠ ""))

/-- The association list the assembly loop builds when no duplicate
occurs. -/
def sysEntries : List RiverGroupData → List (String × RiverSystem)
  | [] => []
  | g :: gs =>
    (if g.name = "" then [] else [(g.name, ⟨g.name, g.is_main, g.reservoirs, []⟩)]) ++
      sysEntries gs

/-- The tributary links the assembly loop collects, in group order. -/
def groupLinks : List RiverGroupData → List Tributary
  | [] => []
  | g :: gs => (if g.name = "" then [] else g.link.toList) ++ groupLinks gs

/-! ## Concrete instances used by witnesses -/

/-- Column with non-empty cells at row 3 and rows 5 through 9 (row 4
blank), sheet extent 9 rows. -/
def sheetC2 : Sheet :=
  ⟨some 9, fun r _ => if r = 3 ∨ (5 ≤ r ∧ r ≤ 9) then some "1" else none⟩

def wbC2 : Workbook := ⟨["S"], fun _ => sheetC2⟩

def envC2 : String → Option Workbook :=
  fun p => if p = "in.xlsx" then some wbC2 else none

/-- Reservoir row over `sheetC2` with `start_row = 3`. -/
def rowC2 : ReservoirRow :=
  ⟨"Hanjiang", "Reservoir1", "in.xlsx", some "in.xlsx", "S", some ("A", 1), 3,
    dateOrdinal 2020 1 1⟩

/-- Reservoir row whose start row (15) is beyond the last populated row
(9) of `sheetC2`. -/
def rowC4 : ReservoirRow :=
  ⟨"Hanjiang", "Reservoir2", "in.xlsx", some "in.xlsx", "S", some ("A", 1), 15,
    dateOrdinal 2021 1 1⟩

/-- Hourly column with 25 populated rows. -/
def sheetC3 : Sheet := ⟨some 25, fun r _ => if r ≤ 25 then some "0.5" else none⟩

def wbC3 : Workbook := ⟨["P"], fun _ => sheetC3⟩

def envC3 : String → Option Workbook :=
  fun p => if p = "pv.xlsx" then some wbC3 else none

/-- PV row: 25 hourly records starting at 2020-01-01T00:00:00. -/
def pvRowC3 : PVRow :=
  ⟨"PV1", "pv.xlsx", some "pv.xlsx", "P", some ("A", 1), 1, dtHours 2020 1 1 0⟩

def envNone : String → Option Workbook := fun _ => none

/-- A fully configured mapping row (non-empty path, sheet, column). -/
def rowOkC6 : ReservoirRow :=
  ⟨"R", "res1", "data.xlsx", some "data.xlsx", "S", some ("A", 1), 1,
    dateOrdinal 2000 1 1⟩

/-- A row with a chosen file but no sheet and no column. -/
def rowBadC6 : ReservoirRow :=
  ⟨"R", "res2", "other.xlsx", some "other.xlsx", "", none, 1, dateOrdinal 2000 1 1⟩

def grpMainC5 : RiverGroupData := ⟨"MainA", true, ["Res1"], "", "", "上游"⟩

/-- Tributary whose insertion target names no declared river. -/
def grpTribC5 : RiverGroupData := ⟨"TribB", false, [], "GhostC", "", "上游"⟩

/-! ## Theorems: graph bookkeeping -/

theorem mem_addKey_self (ks : List α) (k : α) : k ∈ addKey ks k := by
  by_cases h : k ∈ ks <;> simp [addKey, h]

theorem mem_addKey_of_mem {ks : List α} {x : α} (k : α) (h : x ∈ ks) :
    x ∈ addKey ks k := by
  by_cases h2 : k ∈ ks <;> simp [addKey, h2, h]

theorem graphKeysAux_mono (es : List (α × α)) :
    ∀ (ks : List α) (x : α), x ∈ ks → x ∈ graphKeysAux ks es := by
  induction es with
  | nil => intro ks x h; simpa [graphKeysAux] using h
  | cons e es ih =>
    intro ks x h
    exact ih _ x (mem_addKey_of_mem _ (mem_addKey_of_mem _ h))

theorem mem_graphKeysAux_of_mem :
    ∀ (es : List (α × α)) (ks : List α) (p : α × α), p ∈ es →
      p.1 ∈ graphKeysAux ks es ∧ p.2 ∈ graphKeysAux ks es := by
  intro es
  induction es with
  | nil => intro ks p h; cases h
  | cons e es ih =>
    intro ks p h
    rcases List.mem_cons.mp h with rfl | hmem
    · exact ⟨graphKeysAux_mono es _ _ (mem_addKey_of_mem _ (mem_addKey_self ks p.1)),
        graphKeysAux_mono es _ _ (mem_addKey_self _ p.2)⟩
    · exact ih _ p hmem

theorem mem_graphKeys_of_mem {edges : List (α × α)} {p : α × α} (h : p ∈ edges) :
    p.1 ∈ graphKeys edges ∧ p.2 ∈ graphKeys edges :=
  mem_graphKeysAux_of_mem edges [] p h

theorem mem_adjOf {edges : List (α × α)} {u v : α} :
    v ∈ adjOf edges u ↔ (u, v) ∈ edges := by
  constructor
  · intro h
    simp only [adjOf, List.mem_map, List.mem_filter, decide_eq_true_eq] at h
    obtain ⟨p, ⟨hp, hp1⟩, hp2⟩ := h
    have hpe : p = (u, v) := Prod.ext hp1 hp2
    rwa [hpe] at hp
  · intro h
    simp only [adjOf, List.mem_map, List.mem_filter, decide_eq_true_eq]
    exact ⟨(u, v), ⟨h, rfl⟩, rfl⟩

theorem whiteCount_le_of_white_sub (K : List α) {c c2 : α → Color}
    (h : ∀ x, c2 x = Color.WHITE → c x = Color.WHITE) :
    whiteCount K c2 ≤ whiteCount K c := by
  have hsub : List.Sublist (K.filter (fun k => decide (c2 k = Color.WHITE)))
      (K.filter (fun k => decide (c k = Color.WHITE))) := by
    refine List.monotone_filter_right K ?_
    intro a ha
    simp only [decide_eq_true_eq] at ha ⊢
    exact h a ha
  simpa [whiteCount] using hsub.length_le

theorem whiteCount_pos (K : List α) (c : α → Color) (u : α)
    (hu : u ∈ K) (hw : c u = Color.WHITE) : 1 ≤ whiteCount K c := by
  have hmem : u ∈ K.filter (fun k => decide (c k = Color.WHITE)) :=
    List.mem_filter.mpr ⟨hu, by simp [hw]⟩
  have := List.length_pos.mpr (List.ne_nil_of_mem hmem)
  simpa [whiteCount] using this

theorem whiteCount_gray_lt (K : List α) (c : α → Color) (u : α)
    (hu : u ∈ K) (hw : c u = Color.WHITE) :
    whiteCount K (fun x => if x = u then Color.GRAY else c x) < whiteCount K c := by
  have hsub : List.Sublist
      (K.filter (fun k => decide ((if k = u then Color.GRAY else c k) = Color.WHITE)))
      (K.filter (fun k => decide (c k = Color.WHITE))) := by
    refine List.monotone_filter_right K ?_
    intro a ha
    simp only [decide_eq_true_eq] at ha ⊢
    by_cases hau : a = u
    · rw [if_pos hau] at ha; cases ha
    · rwa [if_neg hau] at ha
  have hle := hsub.length_le
  have hmem : u ∈ K.filter (fun k => decide (c k = Color.WHITE)) :=
    List.mem_filter.mpr ⟨hu, by simp [hw]⟩
  rcases Nat.lt_or_ge
      (K.filter (fun k => decide ((if k = u then Color.GRAY else c k) = Color.WHITE))).length
      (K.filter (fun k => decide (c k = Color.WHITE))).length with hlt | hge
  · simpa [whiteCount] using hlt
  · exfalso
    have heq := hsub.eq_of_length (Nat.le_antisymm hle hge)
    rw [← heq] at hmem
    have h2 := (List.mem_filter.mp hmem).2
    simp at h2

theorem whiteCount_allWhite (K : List α) :
    whiteCount K (fun _ => Color.WHITE) = K.length := by
  simp [whiteCount]

/-! ## Theorems: 3-color DFS correctness -/

theorem dfsAux_mono {K : List α} {n : Nat}
    {f : α → (α → Color) → Bool × (α → Color)} (hf : DfsMonoSpec K n f) :
    ∀ (vs : List α) (c : α → Color), (∀ v ∈ vs, v ∈ K) → whiteCount K c ≤ n →
      MonoAt c (dfsAux f vs c).2 ∧
      ((dfsAux f vs c).1 = false →
        GrayPres c (dfsAux f vs c).2 ∧ ∀ v ∈ vs, (dfsAux f vs c).2 v = Color.BLACK) := by
  intro vs
  induction vs with
  | nil =>
    intro c _ _
    refine ⟨⟨fun x hx => hx, fun x hx => hx⟩, fun _ => ⟨fun x hx => hx, by simp⟩⟩
  | cons v vs ih =>
    intro c hK hwc
    have hvK : v ∈ K := hK v (List.mem_cons_self v vs)
    have hKt : ∀ w ∈ vs, w ∈ K := fun w hwv => hK w (List.mem_cons_of_mem v hwv)
    by_cases hg : c v = Color.GRAY
    · have hd : dfsAux f (v :: vs) c = (true, c) := by simp [dfsAux, hg]
      rw [hd]
      exact ⟨⟨fun x hx => hx, fun x hx => hx⟩, by intro h; cases h⟩
    · by_cases hw : c v = Color.WHITE
      · rcases hfc : f v c with ⟨b2, c2⟩
        have hspec := hf v c hvK hw hwc
        rw [hfc] at hspec
        cases b2 with
        | true =>
          have hd : dfsAux f (v :: vs) c = (true, c2) := by
            simp [dfsAux, hg, hw, hfc]
          rw [hd]
          exact ⟨hspec.1, by intro h; cases h⟩
        | false =>
          have hd : dfsAux f (v :: vs) c = dfsAux f vs c2 := by
            simp [dfsAux, hg, hw, hfc]
          have hfa := hspec.2 rfl
          have hwc2 : whiteCount K c2 ≤ n :=
            le_trans (whiteCount_le_of_white_sub K hspec.1.1) hwc
          have hih := ih c2 hKt hwc2
          rw [hd]
          constructor
          · exact ⟨fun x hx => hspec.1.1 x (hih.1.1 x hx),
              fun x hx => hih.1.2 x (hspec.1.2 x hx)⟩
          · intro hres
            have h2 := hih.2 hres
            refine ⟨fun x hx => hfa.1 x (h2.1 x hx), ?_⟩
            intro w hwmem
            rcases List.mem_cons.mp hwmem with rfl | hwv
            · exact hih.1.2 w hfa.2
            · exact h2.2 w hwv
      · have hb : c v = Color.BLACK := by
          cases hcv : c v
          · exact absurd hcv hw
          · exact absurd hcv hg
          · rfl
        have hd : dfsAux f (v :: vs) c = dfsAux f vs c := by
          simp [dfsAux, hg, hw]
        have hih := ih c hKt hwc
        rw [hd]
        refine ⟨hih.1, ?_⟩
        intro hres
        have h2 := hih.2 hres
        refine ⟨h2.1, ?_⟩
        intro w hwmem
        rcases List.mem_cons.mp hwmem with rfl | hwv
        · exact hih.1.2 w hb
        · exact h2.2 w hwv

theorem dfs_mono {adj : α → List α} {K : List α}
    (hadj : ∀ u v, v ∈ adj u → v ∈ K) :
    ∀ fuel, DfsMonoSpec K fuel (fun v c => dfs adj fuel v c) := by
  intro fuel
  induction fuel with
  | zero =>
    intro v c hv hw hwc
    have := whiteCount_pos K c v hv hw
    omega
  | succ fuel ih =>
    intro u c hu hw hwc
    dsimp only
    have hwc1 : whiteCount K (fun x => if x = u then Color.GRAY else c x) ≤ fuel := by
      have := whiteCount_gray_lt K c u hu hw
      omega
    rcases hda : dfsAux (fun v cc => dfs adj fuel v cc) (adj u)
        (fun x => if x = u then Color.GRAY else c x) with ⟨b2, c2⟩
    have haux := dfsAux_mono ih (adj u)
      (fun x => if x = u then Color.GRAY else c x) (fun w hwadj => hadj u w hwadj) hwc1
    rw [hda] at haux
    have hmc1 : ∀ x, (if x = u then Color.GRAY else c x) = Color.WHITE →
        c x = Color.WHITE := by
      intro x hx
      by_cases hxu : x = u
      · rw [if_pos hxu] at hx; cases hx
      · rwa [if_neg hxu] at hx
    have hbc1 : ∀ x, c x = Color.BLACK → (if x = u then Color.GRAY else c x) = Color.BLACK := by
      intro x hx
      have hxu : x ≠ u := by
        rintro rfl
        rw [hw] at hx
        cases hx
      rwa [if_neg hxu]
    cases b2 with
    | true =>
      have hd : dfs adj (fuel + 1) u c = (true, c2) := by
        simp [dfs, hda]
      rw [hd]
      dsimp only
      constructor
      · exact ⟨fun x hx => hmc1 x (haux.1.1 x hx),
          fun x hx => haux.1.2 x (hbc1 x hx)⟩
      · intro h; cases h
    | false =>
      have hd : dfs adj (fuel + 1) u c =
          (false, fun x => if x = u then Color.BLACK else c2 x) := by
        simp [dfs, hda]
      rw [hd]
      dsimp only
      have hfa := haux.2 rfl
      constructor
      · constructor
        · intro x hx
          by_cases hxu : x = u
          · simp [hxu] at hx
          · simp only [hxu, if_false, if_neg hxu] at hx
            exact hmc1 x (haux.1.1 x hx)
        · intro x hx
          by_cases hxu : x = u
          · simp [hxu]
          · simp only [if_neg hxu]
            exact haux.1.2 x (hbc1 x hx)
      · intro _
        constructor
        · intro x hx
          by_cases hxu : x = u
          · simp [hxu] at hx
          · simp only [if_neg hxu] at hx
            have h2 := hfa.1 x hx
            simpa [hxu] using h2
        · simp

theorem dfsAux_inv {adj : α → List α} {K : List α} {n : Nat}
    {f : α → (α → Color) → Bool × (α → Color)}
    (hmono : DfsMonoSpec K n f) (hinv : DfsInvSpec adj K n f) :
    ∀ (vs : List α) (c : α → Color), (∀ v ∈ vs, v ∈ K) → whiteCount K c ≤ n →
      InvC adj c → (dfsAux f vs c).1 = false → InvC adj (dfsAux f vs c).2 := by
  intro vs
  induction vs with
  | nil =>
    intro c _ _ hc _
    exact hc
  | cons v vs ih =>
    intro c hK hwc hc hres
    have hvK : v ∈ K := hK v (List.mem_cons_self v vs)
    have hKt : ∀ w ∈ vs, w ∈ K := fun w hwv => hK w (List.mem_cons_of_mem v hwv)
    by_cases hg : c v = Color.GRAY
    · have hd : dfsAux f (v :: vs) c = (true, c) := by simp [dfsAux, hg]
      rw [hd] at hres
      cases hres
    · by_cases hw : c v = Color.WHITE
      · rcases hfc : f v c with ⟨b2, c2⟩
        cases b2 with
        | true =>
          have hd : dfsAux f (v :: vs) c = (true, c2) := by
            simp [dfsAux, hg, hw, hfc]
          rw [hd] at hres
          cases hres
        | false =>
          have hd : dfsAux f (v :: vs) c = dfsAux f vs c2 := by
            simp [dfsAux, hg, hw, hfc]
          have hspec := hmono v c hvK hw hwc
          rw [hfc] at hspec
          have hic2 : InvC adj c2 := by
            have h2 := hinv v c hvK hw hwc hc
            rw [hfc] at h2
            exact h2 rfl
          have hwc2 : whiteCount K c2 ≤ n :=
            le_trans (whiteCount_le_of_white_sub K hspec.1.1) hwc
          rw [hd] at hres ⊢
          exact ih c2 hKt hwc2 hic2 hres
      · have hd : dfsAux f (v :: vs) c = dfsAux f vs c := by
          simp [dfsAux, hg, hw]
        rw [hd] at hres ⊢
        exact ih c hKt hwc hc hres

theorem invC_gray_update {adj : α → List α} {c : α → Color} {u : α}
    (hw : c u = Color.WHITE) (hc : InvC adj c) :
    InvC adj (fun x => if x = u then Color.GRAY else c x) := by
  intro x hx
  by_cases hxu : x = u
  · simp [hxu] at hx
  · simp only [if_neg hxu] at hx
    have h2 := hc x hx
    refine ⟨?_, h2.2⟩
    intro v hv
    have hvb := h2.1 v hv
    have hvu : v ≠ u := by
      rintro rfl
      rw [hw] at hvb
      cases hvb
    simp only [if_neg hvu]
    exact hvb

theorem dfs_inv {adj : α → List α} {K : List α}
    (hadj : ∀ u v, v ∈ adj u → v ∈ K) :
    ∀ fuel, DfsInvSpec adj K fuel (fun v c => dfs adj fuel v c) := by
  intro fuel
  induction fuel with
  | zero =>
    intro v c hv hw hwc
    have := whiteCount_pos K c v hv hw
    omega
  | succ fuel ih =>
    intro u c hu hw hwc hc hres
    dsimp only at hres ⊢
    have hwc1 : whiteCount K (fun x => if x = u then Color.GRAY else c x) ≤ fuel := by
      have := whiteCount_gray_lt K c u hu hw
      omega
    rcases hda : dfsAux (fun v cc => dfs adj fuel v cc) (adj u)
        (fun x => if x = u then Color.GRAY else c x) with ⟨b2, c2⟩
    cases b2 with
    | true =>
      have hd : dfs adj (fuel + 1) u c = (true, c2) := by simp [dfs, hda]
      rw [hd] at hres
      cases hres
    | false =>
      have hd : dfs adj (fuel + 1) u c =
          (false, fun x => if x = u then Color.BLACK else c2 x) := by
        simp [dfs, hda]
      have hc1 := invC_gray_update hw hc
      have hic2 : InvC adj c2 := by
        have h2 := dfsAux_inv (dfs_mono hadj fuel) ih (adj u)
          (fun x => if x = u then Color.GRAY else c x)
          (fun w hwadj => hadj u w hwadj) hwc1 hc1
        rw [hda] at h2
        exact h2 rfl
      have hblackAdj : ∀ v ∈ adj u, c2 v = Color.BLACK := by
        have h2 := dfsAux_mono (dfs_mono hadj fuel) (adj u)
          (fun x => if x = u then Color.GRAY else c x)
          (fun w hwadj => hadj u w hwadj) hwc1
        rw [hda] at h2
        exact (h2.2 rfl).2
      rw [hd]
      dsimp only
      intro x hx
      by_cases hxu : x = u
      · subst hxu
        constructor
        · intro v hv
          by_cases hvu : v = x
          · simp [hvu]
          · simp only [if_neg hvu]
            exact hblackAdj v hv
        · intro hcyc
          obtain ⟨w2, hw1, hw2⟩ := Relation.TransGen.head'_iff.mp hcyc
          have hwb : c2 w2 = Color.BLACK := hblackAdj w2 hw1
          exact (hic2 w2 hwb).2 (Relation.TransGen.tail' hw2 hw1)
      · simp only [if_neg hxu] at hx
        have h2 := hic2 x hx
        constructor
        · intro v hv
          by_cases hvu : v = u
          · simp [hvu]
          · simp only [if_neg hvu]
            exact h2.1 v hv
        · exact h2.2

theorem dfsAux_sound {adj : α → List α} {K : List α} {n : Nat}
    {f : α → (α → Color) → Bool × (α → Color)}
    (hmono : DfsMonoSpec K n f) (hsound : DfsSoundSpec adj K n f) :
    ∀ (vs : List α) (c : α → Color) (u : α),
      (∀ v ∈ vs, v ∈ K) → whiteCount K c ≤ n →
      (∀ g, c g = Color.GRAY → Relation.ReflTransGen (adjRel adj) g u) →
      (∀ v ∈ vs, adjRel adj u v) →
      (dfsAux f vs c).1 = true → ∃ z, Relation.TransGen (adjRel adj) z z := by
  intro vs
  induction vs with
  | nil =>
    intro c u _ _ _ _ h
    cases h
  | cons v vs ih =>
    intro c u hK hwc hgray hedge hres
    have hvK : v ∈ K := hK v (List.mem_cons_self v vs)
    have hKt : ∀ w ∈ vs, w ∈ K := fun w hwv => hK w (List.mem_cons_of_mem v hwv)
    have hedget : ∀ w ∈ vs, adjRel adj u w :=
      fun w hwv => hedge w (List.mem_cons_of_mem v hwv)
    by_cases hg : c v = Color.GRAY
    · exact ⟨v, Relation.TransGen.tail' (hgray v hg) (hedge v (List.mem_cons_self v vs))⟩
    · by_cases hw : c v = Color.WHITE
      · rcases hfc : f v c with ⟨b2, c2⟩
        cases b2 with
        | true =>
          refine hsound v c hvK hw hwc ?_ ?_
          · intro g hg2
            exact Relation.ReflTransGen.tail (hgray g hg2) (hedge v (List.mem_cons_self v vs))
          · rw [hfc]
        | false =>
          have hd : dfsAux f (v :: vs) c = dfsAux f vs c2 := by
            simp [dfsAux, hg, hw, hfc]
          rw [hd] at hres
          have hspec := hmono v c hvK hw hwc
          rw [hfc] at hspec
          have hfa := hspec.2 rfl
          exact ih c2 u hKt
            (le_trans (whiteCount_le_of_white_sub K hspec.1.1) hwc)
            (fun g hg2 => hgray g (hfa.1 g hg2)) hedget hres
      · have hd : dfsAux f (v :: vs) c = dfsAux f vs c := by
          simp [dfsAux, hg, hw]
        rw [hd] at hres
        exact ih c u hKt hwc hgray hedget hres

theorem dfs_sound {adj : α → List α} {K : List α}
    (hadj : ∀ u v, v ∈ adj u → v ∈ K) :
    ∀ fuel, DfsSoundSpec adj K fuel (fun v c => dfs adj fuel v c) := by
  intro fuel
  induction fuel with
  | zero =>
    intro v c _ _ _ _ h
    simp [dfs] at h
  | succ fuel ih =>
    intro u c hu hw hwc hgray hres
    dsimp only at hres
    have hwc1 : whiteCount K (fun x => if x = u then Color.GRAY else c x) ≤ fuel := by
      have := whiteCount_gray_lt K c u hu hw
      omega
    rcases hda : dfsAux (fun v cc => dfs adj fuel v cc) (adj u)
        (fun x => if x = u then Color.GRAY else c x) with ⟨b2, c2⟩
    cases b2 with
    | false =>
      have hd : dfs adj (fuel + 1) u c =
          (false, fun x => if x = u then Color.BLACK else c2 x) := by
        simp [dfs, hda]
      rw [hd] at hres
      cases hres
    | true =>
      refine dfsAux_sound (dfs_mono hadj fuel) ih (adj u)
        (fun x => if x = u then Color.GRAY else c x) u
        (fun w hwadj => hadj u w hwadj) hwc1 ?_ ?_ ?_
      · intro g hg2
        by_cases hgu : g = u
        · rw [hgu]
        · simp only [if_neg hgu] at hg2
          exact hgray g hg2
      · intro w hwadj
        exact hwadj
      · rw [hda]

theorem hasCycleLoop_sound {adj : α → List α} {K : List α}
    (hadj : ∀ u v, v ∈ adj u → v ∈ K) (fuel : Nat) :
    ∀ (ns : List α) (c : α → Color), (∀ x ∈ ns, x ∈ K) → whiteCount K c ≤ fuel →
      (∀ g, c g ≠ Color.GRAY) → hasCycleLoop adj fuel ns c = true →
      ∃ z, Relation.TransGen (adjRel adj) z z := by
  intro ns
  induction ns with
  | nil =>
    intro c _ _ _ h
    cases h
  | cons n2 ns ih =>
    intro c hK hwc hng hres
    have hnK : n2 ∈ K := hK n2 (List.mem_cons_self n2 ns)
    have hKt : ∀ w ∈ ns, w ∈ K := fun w hwv => hK w (List.mem_cons_of_mem n2 hwv)
    by_cases hw : c n2 = Color.WHITE
    · rcases hd2 : dfs adj fuel n2 c with ⟨b2, c2⟩
      cases b2 with
      | true =>
        refine dfs_sound hadj fuel n2 c hnK hw hwc ?_ ?_
        · intro g hg2
          exact absurd hg2 (hng g)
        · simp only [hd2]
      | false =>
        have hd : hasCycleLoop adj fuel (n2 :: ns) c = hasCycleLoop adj fuel ns c2 := by
          simp [hasCycleLoop, hw, hd2]
        rw [hd] at hres
        have hspec := dfs_mono hadj fuel n2 c hnK hw hwc
        simp only [hd2] at hspec
        have hfa := hspec.2 trivial
        refine ih c2 hKt (le_trans (whiteCount_le_of_white_sub K hspec.1.1) hwc) ?_ hres
        intro g hg2
        exact hng g (hfa.1 g hg2)
    · have hd : hasCycleLoop adj fuel (n2 :: ns) c = hasCycleLoop adj fuel ns c := by
        simp [hasCycleLoop, hw]
      rw [hd] at hres
      exact ih c hKt hwc hng hres

theorem hasCycleLoop_complete {adj : α → List α} {K : List α}
    (hadj : ∀ u v, v ∈ adj u → v ∈ K) (fuel : Nat) :
    ∀ (ns : List α) (c : α → Color), (∀ x ∈ ns, x ∈ K) → whiteCount K c ≤ fuel →
      (∀ g, c g ≠ Color.GRAY) → InvC adj c →
      hasCycleLoop adj fuel ns c = false →
      ∀ x ∈ ns, ¬ Relation.TransGen (adjRel adj) x x := by
  intro ns
  induction ns with
  | nil =>
    intro c _ _ _ _ _ x hx
    cases hx
  | cons n2 ns ih =>
    intro c hK hwc hng hc hres x hx
    have hnK : n2 ∈ K := hK n2 (List.mem_cons_self n2 ns)
    have hKt : ∀ w ∈ ns, w ∈ K := fun w hwv => hK w (List.mem_cons_of_mem n2 hwv)
    by_cases hw : c n2 = Color.WHITE
    · rcases hd2 : dfs adj fuel n2 c with ⟨b2, c2⟩
      cases b2 with
      | true =>
        have hd : hasCycleLoop adj fuel (n2 :: ns) c = true := by
          simp [hasCycleLoop, hw, hd2]
        rw [hd] at hres
        cases hres
      | false =>
        have hd : hasCycleLoop adj fuel (n2 :: ns) c = hasCycleLoop adj fuel ns c2 := by
          simp [hasCycleLoop, hw, hd2]
        rw [hd] at hres
        have hspec := dfs_mono hadj fuel n2 c hnK hw hwc
        simp only [hd2] at hspec
        have hfa := hspec.2 trivial
        have hic2 : InvC adj c2 := by
          have h2 := dfs_inv hadj fuel n2 c hnK hw hwc hc
          simp only [hd2] at h2
          exact h2 trivial
        have hng2 : ∀ g, c2 g ≠ Color.GRAY := fun g hg2 => hng g (hfa.1 g hg2)
        have hwc2 : whiteCount K c2 ≤ fuel :=
          le_trans (whiteCount_le_of_white_sub K hspec.1.1) hwc
        rcases List.mem_cons.mp hx with rfl | hxs
        · exact (hic2 x hfa.2).2
        · exact ih c2 hKt hwc2 hng2 hic2 hres x hxs
    · have hb : c n2 = Color.BLACK := by
        cases hcv : c n2
        · exact absurd hcv hw
        · exact absurd hcv (hng n2)
        · rfl
      have hd : hasCycleLoop adj fuel (n2 :: ns) c = hasCycleLoop adj fuel ns c := by
        simp [hasCycleLoop, hw]
      rw [hd] at hres
      rcases List.mem_cons.mp hx with rfl | hxs
      · exact (hc x hb).2
      · exact ih c hKt hwc hng hc hres x hxs

/-- Full functional correctness of `ConfigWindow._has_cycle`: it returns
`true` exactly when the edge list contains a directed cycle. -/
theorem has_cycle_correct (edges : List (α × α)) :
    has_cycle edges = true ↔ hasDirectedCycle edges := by
  have hadj : ∀ u v, v ∈ adjOf edges u → v ∈ graphKeys edges := by
    intro u v hv
    exact (mem_graphKeys_of_mem (mem_adjOf.mp hv)).2
  have hrel : ∀ a b, adjRel (adjOf edges) a b ↔ edgeStep edges a b := by
    intro a b
    exact mem_adjOf
  constructor
  · intro h
    obtain ⟨z, hz⟩ := hasCycleLoop_sound hadj (graphKeys edges).length
      (graphKeys edges) (fun _ => Color.WHITE) (fun x hx => hx)
      (le_of_eq (whiteCount_allWhite _)) (fun g hg => by cases hg) h
    exact ⟨z, hz.mono (fun a b hab => (hrel a b).mp hab)⟩
  · rintro ⟨z, hz⟩
    cases h2 : has_cycle edges with
    | true => rfl
    | false =>
      exfalso
      obtain ⟨w, hw1, _⟩ := Relation.TransGen.head'_iff.mp hz
      have hzK : z ∈ graphKeys edges := (mem_graphKeys_of_mem hw1).1
      have hnc := hasCycleLoop_complete hadj (graphKeys edges).length
        (graphKeys edges) (fun _ => Color.WHITE) (fun x hx => hx)
        (le_of_eq (whiteCount_allWhite _)) (fun g hg => by cases hg)
        (fun x hx => by cases hx) h2 z hzK
      exact hnc (hz.mono (fun a b hab => (hrel a b).mpr hab))

/-! ## Theorems: spreadsheet range inference -/

theorem scanColUp_eq_some_iff (sh : Sheet) (col : Nat) :
    ∀ m r : Nat, (scanColUp sh col m = some r ↔
      (1 ≤ r ∧ r ≤ m ∧ cellNonEmpty (sh.cell r col) = true ∧
        ∀ r2, r < r2 → r2 ≤ m → cellNonEmpty (sh.cell r2 col) = false)) := by
  intro m
  induction m with
  | zero =>
    intro r
    simp only [scanColUp]
    constructor
    · intro h
      cases h
    · rintro ⟨h1, h2, -⟩
      omega
  | succ m ih =>
    intro r
    by_cases h : cellNonEmpty (sh.cell (m + 1) col) = true
    · simp only [scanColUp, if_pos h, Option.some.injEq]
      constructor
      · rintro rfl
        exact ⟨by omega, by omega, h, fun r2 hr2 hr2b => by omega⟩
      · rintro ⟨h1, h2, h3, h4⟩
        rcases Nat.lt_or_ge r (m + 1) with hlt | hge
        · have hfail := h4 (m + 1) hlt (Nat.le_refl _)
          rw [h] at hfail
          cases hfail
        · omega
    · have hfalse : cellNonEmpty (sh.cell (m + 1) col) = false := by
        cases hcv : cellNonEmpty (sh.cell (m + 1) col) with
        | false => rfl
        | true => exact absurd hcv h
      simp only [scanColUp, if_neg h]
      rw [ih r]
      constructor
      · rintro ⟨h1, h2, h3, h4⟩
        refine ⟨h1, by omega, h3, ?_⟩
        intro r2 hgt hle
        rcases Nat.lt_or_ge r2 (m + 1) with hlt | hge
        · exact h4 r2 hgt (by omega)
        · have hr2 : r2 = m + 1 := by omega
          rw [hr2]
          exact hfalse
      · rintro ⟨h1, h2, h3, h4⟩
        have hr : r ≤ m := by
          rcases Nat.lt_or_ge r (m + 1) with hlt | hge
          · omega
          · have hre : r = m + 1 := by omega
            rw [hre] at h3
            rw [hfalse] at h3
            cases h3
        exact ⟨h1, hr, h3, fun r2 a b => h4 r2 a (by omega)⟩

/-- Inversion of `reservoirAutoEnd` on its determinate branch. -/
theorem reservoirAutoEnd_value_inv {env : String → Option Workbook}
    {row : ReservoirRow} {v : Nat}
    (h : reservoirAutoEnd env row = EndMark.value v) :
    ∃ p l ci lr, row.last_wb_path = some p ∧ p ≠ "" ∧
      row.col_data = some (l, ci) ∧ ci ≠ 0 ∧ (strip row.sheet_name) ≠ "" ∧
      find_last_non_empty_row env p (strip row.sheet_name) ci = some lr ∧
      row.start_row ≤ lr ∧ v = row.start_date + (lr - row.start_row + 1 - 1) := by
  unfold reservoirAutoEnd at h
  cases hp : row.last_wb_path with
  | none => simp [hp] at h
  | some p =>
    simp only [hp] at h
    by_cases hpe : p = ""
    · rw [if_pos hpe] at h; cases h
    · rw [if_neg hpe] at h
      cases hcol : row.col_data with
      | none => simp [hcol] at h
      | some lc =>
        obtain ⟨l, ci⟩ := lc
        simp only [hcol] at h
        by_cases hcond : (strip row.sheet_name) = "" ∨ ci = 0
        · rw [if_pos hcond] at h; cases h
        · rw [if_neg hcond] at h
          push_neg at hcond
          cases hfind : find_last_non_empty_row env p (strip row.sheet_name) ci with
          | none => simp [hfind] at h
          | some lr =>
            simp only [hfind] at h
            by_cases hlt : lr < row.start_row
            · rw [if_pos hlt] at h; cases h
            · rw [if_neg hlt] at h
              simp only [EndMark.value.injEq] at h
              refine ⟨p, l, ci, lr, rfl, hpe, rfl, hcond.2, hcond.1, hfind,
                Nat.not_lt.mp hlt, ?_⟩
              rw [← h, Nat.max_zero]

/-- Inversion of `pvAutoEnd` on its determinate branch. -/
theorem pvAutoEnd_value_inv {env : String → Option Workbook}
    {row : PVRow} {v : Nat}
    (h : pvAutoEnd env row = EndMark.value v) :
    ∃ p l ci lr, row.last_wb_path = some p ∧ p ≠ "" ∧
      row.col_data = some (l, ci) ∧ ci ≠ 0 ∧ (strip row.sheet_name) ≠ "" ∧
      find_last_non_empty_row env p (strip row.sheet_name) ci = some lr ∧
      row.start_row ≤ lr ∧ v = row.start_datetime + (lr - row.start_row + 1 - 1) := by
  unfold pvAutoEnd at h
  cases hp : row.last_wb_path with
  | none => simp [hp] at h
  | some p =>
    simp only [hp] at h
    by_cases hpe : p = ""
    · rw [if_pos hpe] at h; cases h
    · rw [if_neg hpe] at h
      cases hcol : row.col_data with
      | none => simp [hcol] at h
      | some lc =>
        obtain ⟨l, ci⟩ := lc
        simp only [hcol] at h
        by_cases hcond : (strip row.sheet_name) = "" ∨ ci = 0
        · rw [if_pos hcond] at h; cases h
        · rw [if_neg hcond] at h
          push_neg at hcond
          cases hfind : find_last_non_empty_row env p (strip row.sheet_name) ci with
          | none => simp [hfind] at h
          | some lr =>
            simp only [hfind] at h
            by_cases hlt : lr < row.start_row
            · rw [if_pos hlt] at h; cases h
            · rw [if_neg hlt] at h
              simp only [EndMark.value.injEq] at h
              refine ⟨p, l, ci, lr, rfl, hpe, rfl, hcond.2, hcond.1, hfind,
                Nat.not_lt.mp hlt, ?_⟩
              rw [← h, Nat.max_zero]

/-- Inversion of the `record_count` computation of `ReservoirRow.to_mapping`. -/
theorem reservoirRecordCount_some_inv {env : String → Option Workbook}
    {row : ReservoirRow} {n : Nat}
    (h : reservoirRecordCount env row = some n) :
    ∃ p l ci lr, row.last_wb_path = some p ∧ p ≠ "" ∧
      row.col_data = some (l, ci) ∧ ci ≠ 0 ∧ (strip row.sheet_name) ≠ "" ∧
      find_last_non_empty_row env p (strip row.sheet_name) ci = some lr ∧
      row.start_row ≤ lr ∧ n = lr - row.start_row + 1 := by
  unfold reservoirRecordCount at h
  cases hp : row.last_wb_path with
  | none => simp [hp] at h
  | some p =>
    cases hcol : row.col_data with
    | none => simp [hp, hcol] at h
    | some lc =>
      obtain ⟨l, ci⟩ := lc
      simp only [hp, hcol] at h
      by_cases hcond : p ≠ "" ∧ ci ≠ 0 ∧ (strip row.sheet_name) ≠ ""
      · rw [if_pos hcond] at h
        cases hfind : find_last_non_empty_row env p (strip row.sheet_name) ci with
        | none => simp [hfind] at h
        | some lr =>
          simp only [hfind] at h
          by_cases hle : row.start_row ≤ lr
          · rw [if_pos hle] at h
            simp only [Option.some.injEq] at h
            exact ⟨p, l, ci, lr, rfl, hcond.1, rfl, hcond.2.1, hcond.2.2, hfind,
              hle, h.symm⟩
          · rw [if_neg hle] at h; cases h
      · rw [if_neg hcond] at h; cases h

/-- Inversion of the `record_count` computation of `PVRow.to_mapping`. -/
theorem pvRecordCount_some_inv {env : String → Option Workbook}
    {row : PVRow} {n : Nat}
    (h : pvRecordCount env row = some n) :
    ∃ p l ci lr, row.last_wb_path = some p ∧ p ≠ "" ∧
      row.col_data = some (l, ci) ∧ ci ≠ 0 ∧ (strip row.sheet_name) ≠ "" ∧
      find_last_non_empty_row env p (strip row.sheet_name) ci = some lr ∧
      row.start_row ≤ lr ∧ n = lr - row.start_row + 1 := by
  unfold pvRecordCount at h
  cases hp : row.last_wb_path with
  | none => simp [hp] at h
  | some p =>
    cases hcol : row.col_data with
    | none => simp [hp, hcol] at h
    | some lc =>
      obtain ⟨l, ci⟩ := lc
      simp only [hp, hcol] at h
      by_cases hcond : p ≠ "" ∧ ci ≠ 0 ∧ (strip row.sheet_name) ≠ ""
      · rw [if_pos hcond] at h
        cases hfind : find_last_non_empty_row env p (strip row.sheet_name) ci with
        | none => simp [hfind] at h
        | some lr =>
          simp only [hfind] at h
          by_cases hle : row.start_row ≤ lr
          · rw [if_pos hle] at h
            simp only [Option.some.injEq] at h
            exact ⟨p, l, ci, lr, rfl, hcond.1, rfl, hcond.2.1, hcond.2.2, hfind,
              hle, h.symm⟩
          · rw [if_neg hle] at h; cases h
      · rw [if_neg hcond] at h; cases h

/-! ## Claim theorems: range inference -/

/-- Claim C2: for every spreadsheet column, the range-inference scan
proceeds from the sheet's last row upward and returns the bottom-most
row whose cell value is non-null and non-blank after trimming, so
interior blank cells never terminate the scan early; concretely, for a
column populated at row 3 and rows 5 through 9 (row 4 blank) with
`start_row = 3`, the last populated row is 9 and `record_count = 7`. -/
theorem claim_C2_bottom_up_scan :
    (∀ (env : String → Option Workbook) (p s : String) (ci : Nat) (wb : Workbook)
        (r : Nat), env p = some wb → s ∈ wb.sheetnames →
      (find_last_non_empty_row env p s ci = some r ↔
        (1 ≤ r ∧ r ≤ (wb.sheet s).max_row.getD 0 ∧
          cellNonEmpty ((wb.sheet s).cell r ci) = true ∧
          ∀ r2, r < r2 → r2 ≤ (wb.sheet s).max_row.getD 0 →
            cellNonEmpty ((wb.sheet s).cell r2 ci) = false))) ∧
    find_last_non_empty_row envC2 "in.xlsx" "S" 1 = some 9 ∧
    (reservoirToMapping envC2 rowC2).record_count = some 7 := by
  refine ⟨?_, by decide, by decide⟩
  intro env p s ci wb r henv hs
  have hq : find_last_non_empty_row env p s ci =
      scanColUp (wb.sheet s) ci ((wb.sheet s).max_row.getD 0) := by
    simp [find_last_non_empty_row, henv, hs]
  rw [hq]
  exact scanColUp_eq_some_iff (wb.sheet s) ci ((wb.sheet s).max_row.getD 0) r

/-- Witness for C2 at the concrete workbook `wbC2`. -/
theorem claim_C2_witness :
    envC2 "in.xlsx" = some wbC2 ∧ "S" ∈ wbC2.sheetnames ∧
    (find_last_non_empty_row envC2 "in.xlsx" "S" 1 = some 9 ↔
      (1 ≤ 9 ∧ 9 ≤ (wbC2.sheet "S").max_row.getD 0 ∧
        cellNonEmpty ((wbC2.sheet "S").cell 9 1) = true ∧
        ∀ r2, 9 < r2 → r2 ≤ (wbC2.sheet "S").max_row.getD 0 →
          cellNonEmpty ((wbC2.sheet "S").cell r2 1) = false)) :=
  ⟨rfl, by decide,
    claim_C2_bottom_up_scan.1 envC2 "in.xlsx" "S" 1 wbC2 9 rfl (by decide)⟩

/-- Claim C3: when the last populated row is determinate and at or after
the start row, `record_count = last_row - start_row + 1` and the derived
end is the start plus `record_count - 1` units (days for the daily
reservoir path, hours for the hourly PV path, both rows modeled on
linear day/hour scales); concretely 2020-01-01T00:00:00 with 25 hourly
records ends at 2020-01-02T00:00:00. -/
theorem claim_C3_end_arithmetic :
    (∀ (env : String → Option Workbook) (row : ReservoirRow) (p l : String)
        (ci lr : Nat),
      row.last_wb_path = some p → p ≠ "" → row.col_data = some (l, ci) → ci ≠ 0 →
      (strip row.sheet_name) ≠ "" →
      find_last_non_empty_row env p (strip row.sheet_name) ci = some lr →
      row.start_row ≤ lr →
      (reservoirToMapping env row).record_count = some (lr - row.start_row + 1) ∧
      (reservoirToMapping env row).end_date =
        some (row.start_date + (lr - row.start_row + 1 - 1))) ∧
    (∀ (env : String → Option Workbook) (row : PVRow) (p l : String)
        (ci lr : Nat),
      row.last_wb_path = some p → p ≠ "" → row.col_data = some (l, ci) → ci ≠ 0 →
      (strip row.sheet_name) ≠ "" →
      find_last_non_empty_row env p (strip row.sheet_name) ci = some lr →
      row.start_row ≤ lr →
      (pvToMapping env row).record_count = some (lr - row.start_row + 1) ∧
      (pvToMapping env row).end_datetime =
        some (row.start_datetime + (lr - row.start_row + 1 - 1))) ∧
    (pvToMapping envC3 pvRowC3).record_count = some 25 ∧
    (pvToMapping envC3 pvRowC3).end_datetime = some (dtHours 2020 1 2 0) ∧
    pvRowC3.start_datetime = dtHours 2020 1 1 0 ∧
    dtHours 2020 1 2 0 = dtHours 2020 1 1 0 + (25 - 1) := by
  refine ⟨?_, ?_, by decide, by decide, by decide, by decide⟩
  · intro env row p l ci lr hp hpe hcol hci hsheet hfind hle
    constructor
    · show reservoirRecordCount env row = _
      simp [reservoirRecordCount, hp, hcol, hfind, hpe, hci, hsheet, hle]
    · have hend : reservoirAutoEnd env row =
          EndMark.value (row.start_date + (lr - row.start_row + 1 - 1)) := by
        simp [reservoirAutoEnd, hp, hcol, hfind, hpe, hci, hsheet,
          Nat.not_lt.mpr hle]
      show (match reservoirAutoEnd env row with
        | EndMark.value v => some v
        | _ => none) = _
      rw [hend]
  · intro env row p l ci lr hp hpe hcol hci hsheet hfind hle
    constructor
    · show pvRecordCount env row = _
      simp [pvRecordCount, hp, hcol, hfind, hpe, hci, hsheet, hle]
    · have hend : pvAutoEnd env row =
          EndMark.value (row.start_datetime + (lr - row.start_row + 1 - 1)) := by
        simp [pvAutoEnd, hp, hcol, hfind, hpe, hci, hsheet, Nat.not_lt.mpr hle]
      show (match pvAutoEnd env row with
        | EndMark.value v => some v
        | _ => none) = _
      rw [hend]

/-- Witness for C3 at the concrete daily row `rowC2` (last row 9,
start row 3). -/
theorem claim_C3_witness :
    (rowC2.last_wb_path = some "in.xlsx" ∧ "in.xlsx" ≠ "" ∧
      rowC2.col_data = some ("A", 1) ∧ (1 : Nat) ≠ 0 ∧
      (strip rowC2.sheet_name) ≠ "" ∧
      find_last_non_empty_row envC2 "in.xlsx" (strip rowC2.sheet_name) 1 = some 9 ∧
      rowC2.start_row ≤ 9) ∧
    (reservoirToMapping envC2 rowC2).record_count = some (9 - rowC2.start_row + 1) ∧
    (reservoirToMapping envC2 rowC2).end_date =
      some (rowC2.start_date + (9 - rowC2.start_row + 1 - 1)) :=
  ⟨by decide,
    claim_C3_end_arithmetic.1 envC2 rowC2 "in.xlsx" "A" 1 9 (by decide) (by decide)
      (by decide) (by decide) (by decide) (by decide) (by decide)⟩

/-- Claim C4: when no non-blank cell exists at or after the start row
(including a start row beyond the last populated row, an unopenable
workbook, and a missing sheet), the entry gets no end value and a null
record count; the embedding is total, so no exception escapes. -/
theorem claim_C4_indeterminate :
    (∀ (env : String → Option Workbook) (row : ReservoirRow),
      noQualifyingRow env row →
      (reservoirToMapping env row).end_date = none ∧
      (reservoirToMapping env row).record_count = none) ∧
    (∀ (env : String → Option Workbook) (row : PVRow),
      noQualifyingRowPV env row →
      (pvToMapping env row).end_datetime = none ∧
      (pvToMapping env row).record_count = none) := by
  constructor
  · intro env row h
    constructor
    · show (match reservoirAutoEnd env row with
        | EndMark.value v => some v
        | _ => none) = none
      cases hae : reservoirAutoEnd env row with
      | dash => rfl
      | noData => rfl
      | value v =>
        obtain ⟨p, l, ci, lr, hp, hpe, hcol, hci, hsheet, hfind, hle, hv⟩ :=
          reservoirAutoEnd_value_inv hae
        exact absurd (h p l ci lr hp hcol hfind) (by omega)
    · show reservoirRecordCount env row = none
      cases hrc : reservoirRecordCount env row with
      | none => rfl
      | some n =>
        obtain ⟨p, l, ci, lr, hp, hpe, hcol, hci, hsheet, hfind, hle, hn⟩ :=
          reservoirRecordCount_some_inv hrc
        exact absurd (h p l ci lr hp hcol hfind) (by omega)
  · intro env row h
    constructor
    · show (match pvAutoEnd env row with
        | EndMark.value v => some v
        | _ => none) = none
      cases hae : pvAutoEnd env row with
      | dash => rfl
      | noData => rfl
      | value v =>
        obtain ⟨p, l, ci, lr, hp, hpe, hcol, hci, hsheet, hfind, hle, hv⟩ :=
          pvAutoEnd_value_inv hae
        exact absurd (h p l ci lr hp hcol hfind) (by omega)
    · show pvRecordCount env row = none
      cases hrc : pvRecordCount env row with
      | none => rfl
      | some n =>
        obtain ⟨p, l, ci, lr, hp, hpe, hcol, hci, hsheet, hfind, hle, hn⟩ :=
          pvRecordCount_some_inv hrc
        exact absurd (h p l ci lr hp hcol hfind) (by omega)

/-- Witness for C4: `rowC4` starts at row 15, beyond the last populated
row 9 of its column. -/
theorem claim_C4_witness :
    noQualifyingRow envC2 rowC4 ∧
    (reservoirToMapping envC2 rowC4).end_date = none ∧
    (reservoirToMapping envC2 rowC4).record_count = none := by
  have h : noQualifyingRow envC2 rowC4 := by
    intro p l ci lr hp hcol hfind
    rw [show rowC4.last_wb_path = some "in.xlsx" from rfl] at hp
    rw [show rowC4.col_data = some ("A", 1) from rfl] at hcol
    injection hp with hp2
    injection hcol with hcol2
    injection hcol2 with hl2 hci2
    subst hp2
    subst hci2
    have h9 : find_last_non_empty_row envC2 "in.xlsx" (strip rowC4.sheet_name) 1 =
        some 9 := by decide
    rw [h9] at hfind
    injection hfind with hlr
    subst hlr
    decide
  exact ⟨h, (claim_C4_indeterminate.1 envC2 rowC4 h).1,
    (claim_C4_indeterminate.1 envC2 rowC4 h).2⟩

/-- Claim C10 (implicit invariant): a determinate inference result has
`record_count ≥ 1` and end at or after the start, with equality exactly
when `record_count = 1`, on both the daily and the hourly path. -/
theorem claim_C10_determinate_invariant :
    (∀ (env : String → Option Workbook) (row : ReservoirRow) (e : Nat),
      (reservoirToMapping env row).end_date = some e →
      ∃ n, (reservoirToMapping env row).record_count = some n ∧ 1 ≤ n ∧
        row.start_date ≤ e ∧ (e = row.start_date ↔ n = 1)) ∧
    (∀ (env : String → Option Workbook) (row : PVRow) (e : Nat),
      (pvToMapping env row).end_datetime = some e →
      ∃ n, (pvToMapping env row).record_count = some n ∧ 1 ≤ n ∧
        row.start_datetime ≤ e ∧ (e = row.start_datetime ↔ n = 1)) := by
  constructor
  · intro env row e he
    have hae : reservoirAutoEnd env row = EndMark.value e := by
      revert he
      show (match reservoirAutoEnd env row with
        | EndMark.value v => some v
        | _ => none) = some e → _
      cases h2 : reservoirAutoEnd env row with
      | dash => intro h3; cases h3
      | noData => intro h3; cases h3
      | value v =>
        intro h3
        simp only [Option.some.injEq] at h3
        rw [h3]
    obtain ⟨p, l, ci, lr, hp, hpe, hcol, hci, hsheet, hfind, hle, hv⟩ :=
      reservoirAutoEnd_value_inv hae
    refine ⟨lr - row.start_row + 1, ?_, by omega, by omega, by omega⟩
    show reservoirRecordCount env row = _
    simp [reservoirRecordCount, hp, hcol, hfind, hpe, hci, hsheet, hle]
  · intro env row e he
    have hae : pvAutoEnd env row = EndMark.value e := by
      revert he
      show (match pvAutoEnd env row with
        | EndMark.value v => some v
        | _ => none) = some e → _
      cases h2 : pvAutoEnd env row with
      | dash => intro h3; cases h3
      | noData => intro h3; cases h3
      | value v =>
        intro h3
        simp only [Option.some.injEq] at h3
        rw [h3]
    obtain ⟨p, l, ci, lr, hp, hpe, hcol, hci, hsheet, hfind, hle, hv⟩ :=
      pvAutoEnd_value_inv hae
    refine ⟨lr - row.start_row + 1, ?_, by omega, by omega, by omega⟩
    show pvRecordCount env row = _
    simp [pvRecordCount, hp, hcol, hfind, hpe, hci, hsheet, hle]

/-- Witness for C10 at the concrete daily row `rowC2`. -/
theorem claim_C10_witness :
    (reservoirToMapping envC2 rowC2).end_date = some (dateOrdinal 2020 1 1 + 6) ∧
    (∃ n, (reservoirToMapping envC2 rowC2).record_count = some n ∧ 1 ≤ n ∧
      rowC2.start_date ≤ dateOrdinal 2020 1 1 + 6 ∧
      (dateOrdinal 2020 1 1 + 6 = rowC2.start_date ↔ n = 1)) :=
  ⟨by decide,
    claim_C10_determinate_invariant.1 envC2 rowC2 (dateOrdinal 2020 1 1 + 6)
      (by decide)⟩

/-! ## Claim theorems: cycle detection, round trip, resource tracking -/

/-- Claim C1: `_has_cycle` returns true if and only if the edge set
contains a directed cycle; in particular it is true for the 3-node cycle
A→B→C→A and for the self-loop A→A, and false for a diamond where two
tributaries share one target. -/
theorem claim_C1_cycle_detection :
    (∀ edges : List (String × String),
      has_cycle edges = true ↔ hasDirectedCycle edges) ∧
    has_cycle [("A", "B"), ("B", "C"), ("C", "A")] = true ∧
    has_cycle [("A", "A")] = true ∧
    has_cycle [("T1", "M"), ("T2", "M")] = false :=
  ⟨fun edges => has_cycle_correct edges, by decide, by decide, by decide⟩

/-- Claim C8: serializing a topology, reloading the artifact, and
flattening its reservoir list reproduces the original ordered
(river_name, reservoir_name) pairs (`json.dump`/`json.load` is modeled
as the identity on the dictionary tree `to_dict` emits). -/
theorem claim_C8_roundtrip :
    ∀ cfg : ReservoirConfig,
      extract_reservoir_list (ReservoirConfig.to_dict cfg) = topologyPairs cfg := by
  intro cfg
  obtain ⟨rivers, dt⟩ := cfg
  induction rivers with
  | nil => rfl
  | cons r rs ih =>
    simp only [extract_reservoir_list, ReservoirConfig.to_dict, topologyPairs,
      List.map_cons, List.foldr_cons] at ih ⊢
    rw [ih]
    rfl

/-- Claim C9: the column scan never releases the workbook handle it
opens: the instrumented scan agrees with the plain one on the returned
row, and its open-handle count at exit is 1 exactly when the workbook
opened successfully — on the successful-return path, the no-data path
and the missing-sheet path alike — and 0 only when the open itself
failed.  Concretely, a successful scan of `wbC2` exits with one handle
still open. -/
theorem claim_C9_handle_not_released :
    (∀ (env : String → Option Workbook) (p s : String) (ci : Nat),
      (find_last_non_empty_row_tracked env p s ci).1 =
        find_last_non_empty_row env p s ci) ∧
    (∀ (env : String → Option Workbook) (p s : String) (ci : Nat),
      (find_last_non_empty_row_tracked env p s ci).2 =
        if (env p).isSome then 1 else 0) ∧
    (find_last_non_empty_row_tracked envC2 "in.xlsx" "S" 1).2 = 1 ∧
    (find_last_non_empty_row_tracked envC2 "in.xlsx" "S" 1).1 = some 9 := by
  refine ⟨?_, ?_, by decide, by decide⟩
  · intro env p s ci
    unfold find_last_non_empty_row_tracked find_last_non_empty_row
    cases env p with
    | none => rfl
    | some wb =>
      by_cases hs : s ∈ wb.sheetnames <;> simp [hs]
  · intro env p s ci
    unfold find_last_non_empty_row_tracked
    cases env p with
    | none => rfl
    | some wb =>
      by_cases hs : s ∈ wb.sheetnames <;> simp [hs]

/-! ## Theorems: mapping save -/

theorem collectInflow_ok {env : String → Option Workbook}
    {rows : List ReservoirRow} {ms : List ReservoirMapping}
    (h : collectInflow env rows = Except.ok ms) :
    ms = (rows.map (reservoirToMapping env)).filter
      (fun m => decide (m.file_path ≠ "")) := by
  induction rows generalizing ms with
  | nil =>
    simp only [collectInflow, Except.ok.injEq] at h
    rw [← h]
    rfl
  | cons r rs ih =>
    simp only [collectInflow] at h
    by_cases hval : reservoirIsValid env r = true
    · rw [if_pos hval] at h
      cases hc : collectInflow env rs with
      | error e => simp [hc] at h
      | ok ms2 =>
        simp only [hc, Except.ok.injEq] at h
        subst h
        by_cases hmp : (reservoirToMapping env r).file_path ≠ ""
        · simp [hmp, List.filter_cons, ih hc]
        · simp [hmp, List.filter_cons, ih hc]
    · have hval2 : reservoirIsValid env r = false := by
        cases hcv : reservoirIsValid env r with
        | false => rfl
        | true => exact absurd hcv hval
      rw [hval2] at h
      simp at h
  
theorem collectPV_ok {env : String → Option Workbook}
    {rows : List PVRow} {ms : List PVMapping}
    (h : collectPV env rows = Except.ok ms) :
    ms = (rows.map (pvToMapping env)).filter
      (fun m => decide (m.file_path ≠ "")) := by
  induction rows generalizing ms with
  | nil =>
    simp only [collectPV, Except.ok.injEq] at h
    rw [← h]
    rfl
  | cons r rs ih =>
    simp only [collectPV] at h
    by_cases hval : pvIsValid env r = true
    · rw [if_pos hval] at h
      cases hc : collectPV env rs with
      | error e => simp [hc] at h
      | ok ms2 =>
        simp only [hc, Except.ok.injEq] at h
        subst h
        by_cases hmp : (pvToMapping env r).file_path ≠ ""
        · simp [hmp, List.filter_cons, ih hc]
        · simp [hmp, List.filter_cons, ih hc]
    · have hval2 : pvIsValid env r = false := by
        cases hcv : pvIsValid env r with
        | false => rfl
        | true => exact absurd hcv hval
      rw [hval2] at h
      simp at h

theorem collectInflow_error_of_invalid {env : String → Option Workbook}
    {rows : List ReservoirRow} {r : ReservoirRow}
    (hr : r ∈ rows) (hinv : reservoirIsValid env r = false) :
    ∃ nm, collectInflow env rows = Except.error nm := by
  induction rows with
  | nil => cases hr
  | cons a rs ih =>
    by_cases hval : reservoirIsValid env a = true
    · have hra : r ≠ a := by
        rintro rfl
        rw [hval] at hinv
        cases hinv
      have hrs : r ∈ rs := by
        rcases List.mem_cons.mp hr with rfl | h2
        · exact absurd rfl hra
        · exact h2
      obtain ⟨nm, hnm⟩ := ih hrs
      exact ⟨nm, by simp [collectInflow, hval, hnm]⟩
    · have hval2 : reservoirIsValid env a = false := by
        cases hcv : reservoirIsValid env a with
        | false => rfl
        | true => exact absurd hcv hval
      exact ⟨a.reservoir_name, by simp [collectInflow, hval2]⟩

theorem on_save_mapping_saved_inv {env : String → Option Workbook}
    {dt : String} {rows : List ReservoirRow} {pvE : Bool} {pvRows : List PVRow}
    {art : MappingArtifact}
    (h : on_save_mapping env dt rows pvE pvRows = MappingSaveOutcome.saved art) :
    art.data_type = dt ∧
    art.reservoir_inflow_sources = (rows.map (reservoirToMapping env)).filter
      (fun m => decide (m.file_path ≠ "")) ∧
    art.pv_sources = (if pvE then (pvRows.map (pvToMapping env)).filter
      (fun m => decide (m.file_path ≠ "")) else []) := by
  unfold on_save_mapping at h
  cases hc : collectInflow env rows with
  | error e => simp [hc] at h
  | ok infl =>
    simp only [hc] at h
    cases hp : (if pvE then collectPV env pvRows else Except.ok []) with
    | error e => simp [hp] at h
    | ok pvs =>
      simp only [hp, MappingSaveOutcome.saved.injEq] at h
      subst h
      refine ⟨rfl, collectInflow_ok hc, ?_⟩
      cases pvE with
      | true =>
        rw [if_pos rfl] at hp
        rw [if_pos rfl]
        exact collectPV_ok hp
      | false =>
        rw [if_neg Bool.false_ne_true] at hp
        rw [if_neg Bool.false_ne_true]
        injection hp with hp2
        exact hp2.symm

/-- Claim C6: a mapping entry with an empty file path is always valid
and is silently excluded from the saved artifact, while an entry with a
non-empty file path but a missing sheet or column makes the save handler
stop with an IncompleteMapping warning (the start value is a date widget
and can never be missing). -/
theorem claim_C6_incomplete_mapping :
    (∀ (env : String → Option Workbook) (r : ReservoirRow),
      (strip r.file_path) = "" → reservoirIsValid env r = true) ∧
    (∀ (env : String → Option Workbook) (dt : String) (rows : List ReservoirRow)
        (pvE : Bool) (pvRows : List PVRow) (art : MappingArtifact),
      on_save_mapping env dt rows pvE pvRows = MappingSaveOutcome.saved art →
      art.reservoir_inflow_sources = (rows.map (reservoirToMapping env)).filter
        (fun m => decide (m.file_path ≠ ""))) ∧
    (∀ (env : String → Option Workbook) (dt : String) (rows : List ReservoirRow)
        (pvE : Bool) (pvRows : List PVRow) (r : ReservoirRow), r ∈ rows →
      (reservoirToMapping env r).file_path ≠ "" →
      ((reservoirToMapping env r).sheet_name = "" ∨
        (reservoirToMapping env r).column_letter = none ∨
        (reservoirToMapping env r).column_index = none) →
      ∃ nm, on_save_mapping env dt rows pvE pvRows =
        MappingSaveOutcome.incomplete nm) := by
  refine ⟨?_, ?_, ?_⟩
  · intro env r h
    have hfp : (reservoirToMapping env r).file_path = "" := h
    simp [reservoirIsValid, hfp]
  · intro env dt rows pvE pvRows art h
    exact (on_save_mapping_saved_inv h).2.1
  · intro env dt rows pvE pvRows r hr hfp hmiss
    have hinv : reservoirIsValid env r = false := by
      rcases hmiss with hs | hl | hi
      · simp [reservoirIsValid, hfp, hs]
      · simp [reservoirIsValid, hfp, hl, strTruthy]
      · simp [reservoirIsValid, hfp, hi]
    obtain ⟨nm, hnm⟩ := collectInflow_error_of_invalid hr hinv
    exact ⟨nm, by simp [on_save_mapping, hnm]⟩

/-- Witness for C6: the fully configured `rowOkC6` together with
`rowBadC6` (file chosen, sheet and column missing) makes the save stop
with an IncompleteMapping warning. -/
theorem claim_C6_witness :
    (strip rowOkC6.file_path) ≠ "" ∧
    rowBadC6 ∈ [rowOkC6, rowBadC6] ∧
    (reservoirToMapping envNone rowBadC6).file_path ≠ "" ∧
    ((reservoirToMapping envNone rowBadC6).sheet_name = "" ∨
      (reservoirToMapping envNone rowBadC6).column_letter = none ∨
      (reservoirToMapping envNone rowBadC6).column_index = none) ∧
    (∃ nm, on_save_mapping envNone "daily" [rowOkC6, rowBadC6] false [] =
      MappingSaveOutcome.incomplete nm) :=
  ⟨by decide, by decide, by decide, by decide,
    claim_C6_incomplete_mapping.2.2 envNone "daily" [rowOkC6, rowBadC6] false []
      rowBadC6 (by decide) (by decide) (by decide)⟩

/-- Counterexample to claim C7 as stated: with one valid, fully
configured entry (`rowOkC6`) and one incomplete entry (`rowBadC6`), the
handler aborts with the IncompleteMapping warning for `rowBadC6`; no
artifact is produced at all, so the valid entry is *not* written. -/
theorem claim_C7_counterexample :
    on_save_mapping envNone "daily" [rowOkC6, rowBadC6] false [] =
      MappingSaveOutcome.incomplete "res2" ∧
    reservoirIsValid envNone rowOkC6 = true ∧
    (reservoirToMapping envNone rowOkC6).file_path ≠ "" := by
  refine ⟨by decide, by decide, by decide⟩

/-- Claim C7 as amended: when any mapping entry triggers
IncompleteMapping, the entire save is aborted — no artifact is written,
and in particular the other (valid) entries are not saved either. -/
theorem claim_C7_amended :
    ∀ (env : String → Option Workbook) (dt : String) (rows : List ReservoirRow)
      (pvE : Bool) (pvRows : List PVRow),
      (∃ r ∈ rows, reservoirIsValid env r = false) →
      ∀ art, on_save_mapping env dt rows pvE pvRows ≠
        MappingSaveOutcome.saved art := by
  rintro env dt rows pvE pvRows ⟨r, hr, hinv⟩ art hsaved
  obtain ⟨nm, hnm⟩ := collectInflow_error_of_invalid hr hinv
  rw [on_save_mapping, hnm] at hsaved
  cases hsaved

/-- Witness for the amended C7 at the concrete rows. -/
theorem claim_C7_amended_witness :
    reservoirIsValid envNone rowBadC6 = false ∧
    on_save_mapping envNone "daily" [rowOkC6, rowBadC6] false [] ≠
      MappingSaveOutcome.saved ⟨"daily", [], []⟩ :=
  ⟨by decide,
    claim_C7_amended envNone "daily" [rowOkC6, rowBadC6] false []
      ⟨rowBadC6, by decide, by decide⟩ ⟨"daily", [], []⟩⟩

/-! ## Theorems: topology save ordering -/

theorem mem_nonEmptyNames {groups : List RiverGroupData} {n : String} :
    n ∈ nonEmptyNames groups ↔ ∃ g ∈ groups, g.name = n ∧ n ≠ "" := by
  simp only [nonEmptyNames, List.mem_filter, List.mem_map, decide_eq_true_eq]
  constructor
  · rintro ⟨⟨g, hg, rfl⟩, hne⟩
    exact ⟨g, hg, rfl, hne⟩
  · rintro ⟨g, hg, rfl, hne⟩
    exact ⟨⟨g, hg, rfl⟩, hne⟩

theorem sysEntries_keys (gs : List RiverGroupData) :
    (sysEntries gs).map Prod.fst = nonEmptyNames gs := by
  induction gs with
  | nil => rfl
  | cons g gs ih =>
    by_cases hne : g.name = ""
    · simp only [sysEntries, nonEmptyNames, List.map_cons, List.filter_cons] at ih ⊢
      simp [hne, ih]
    · simp only [sysEntries, nonEmptyNames, List.map_cons, List.filter_cons] at ih ⊢
      simp [hne, ih]

theorem buildSystems_ok :
    ∀ (gs : List RiverGroupData) (acc : List (String × RiverSystem))
        (links : List Tributary),
      (∀ g ∈ gs, g.name ≠ "" → ∀ q ∈ acc, q.1 ≠ g.name) →
      (nonEmptyNames gs).Nodup →
      buildSystems gs acc links =
        Sum.inr (acc ++ sysEntries gs, links ++ groupLinks gs) := by
  intro gs
  induction gs with
  | nil =>
    intro acc links _ _
    simp [buildSystems, sysEntries, groupLinks]
  | cons g gs ih =>
    intro acc links hacc hnd
    by_cases hne : g.name = ""
    · have hstep : buildSystems (g :: gs) acc links = buildSystems gs acc links := by
        simp [buildSystems, hne]
      have hacc2 : ∀ g2 ∈ gs, g2.name ≠ "" → ∀ q ∈ acc, q.1 ≠ g2.name :=
        fun g2 h2 => hacc g2 (List.mem_cons_of_mem _ h2)
      have hnd2 : (nonEmptyNames gs).Nodup := by
        simpa [nonEmptyNames, hne] using hnd
      rw [hstep, ih acc links hacc2 hnd2]
      simp [sysEntries, groupLinks, hne]
    · have hnone : acc.find? (fun p => decide (p.1 = g.name)) = none := by
        rw [List.find?_eq_none]
        intro x hx
        simp only [decide_eq_true_eq]
        exact hacc g (List.mem_cons_self g gs) hne x hx
      have hstep : buildSystems (g :: gs) acc links =
          buildSystems gs (acc ++ [(g.name, ⟨g.name, g.is_main, g.reservoirs, []⟩)])
            (links ++ g.link.toList) := by
        simp [buildSystems, hne, hnone]
      have hndc : nonEmptyNames (g :: gs) = g.name :: nonEmptyNames gs := by
        simp [nonEmptyNames, hne]
      rw [hndc] at hnd
      have hnotmem : g.name ∉ nonEmptyNames gs := (List.nodup_cons.mp hnd).1
      have hndt : (nonEmptyNames gs).Nodup := (List.nodup_cons.mp hnd).2
      have hacc2 : ∀ g2 ∈ gs, g2.name ≠ "" →
          ∀ q ∈ acc ++ [(g.name, ⟨g.name, g.is_main, g.reservoirs, []⟩)],
            q.1 ≠ g2.name := by
        intro g2 h2 hne2 q hq
        rcases List.mem_append.mp hq with hq1 | hq2
        · exact hacc g2 (List.mem_cons_of_mem _ h2) hne2 q hq1
        · rw [List.mem_singleton] at hq2
          subst hq2
          intro hqe
          apply hnotmem
          have : g.name = g2.name := hqe
          rw [this]
          exact mem_nonEmptyNames.mpr ⟨g2, h2, rfl, hne2⟩
      rw [hstep, ih _ _ hacc2 hndt]
      simp [sysEntries, groupLinks, hne, List.append_assoc]

theorem lookupSys_eq_none {m : List (String × RiverSystem)} {t : String} :
    lookupSys m t = none ↔ ∀ q ∈ m, q.1 ≠ t := by
  simp [lookupSys, List.find?_eq_none]

theorem link_mem_groupLinks {gs : List RiverGroupData} {g : RiverGroupData}
    {t : Tributary} (hg : g ∈ gs) (hne : g.name ≠ "") (ht : g.link = some t) :
    t ∈ groupLinks gs := by
  induction gs with
  | nil => cases hg
  | cons a gs ih =>
    rcases List.mem_cons.mp hg with rfl | h2
    · simp [groupLinks, hne, ht]
    · rcases List.mem_cons.mp hg with rfl | h2b
      · simp [groupLinks, hne, ht]
      · simp only [groupLinks, List.mem_append]
        exact Or.inr (ih h2b)

theorem find?_isSome_of_mem {β : Type} {p : β → Bool} {l : List β} {x : β}
    (hx : x ∈ l) (hp : p x = true) :
    ∃ y, l.find? p = some y ∧ p y = true := by
  induction l with
  | nil => cases hx
  | cons a l ih =>
    by_cases ha : p a = true
    · exact ⟨a, by rw [List.find?_cons_of_pos _ ha], ha⟩
    · rcases List.mem_cons.mp hx with rfl | h2
      · exact absurd hp ha
      · obtain ⟨y, hy1, hy2⟩ := ih h2
        exact ⟨y, by rw [List.find?_cons_of_neg _ ha]; exact hy1, hy2⟩

/-- Claim C5: with pairwise-distinct (non-empty) river names, a
configuration containing a tributary whose insertion target is not a
declared river name is rejected by `on_save` with the dangling-reference
warning; cycle detection is never reached (the outcome is `dangling`,
not `cycle_error`).  The duplicate-name check runs even earlier, which
is why distinct names are assumed. -/
theorem claim_C5_dangling_before_cycle :
    ∀ (dt : String) (groups : List RiverGroupData),
      (nonEmptyNames groups).Nodup →
      (∃ g ∈ groups, g.name ≠ "" ∧ g.is_main = false ∧
        ∀ g2 ∈ groups, g2.name ≠ "" → (strip g.insert_target) ≠ g2.name) →
      ∃ t r, on_save dt groups = SaveOutcome.dangling t r := by
  intro dt groups hnd hdang
  obtain ⟨g, hg, hne, hmain, htar⟩ := hdang
  have hlink : g.link = some ⟨g.name, (strip g.insert_target),
      (if (strip g.insert_point) = "" then "未指定" else (strip g.insert_point)),
      g.location⟩ := by
    simp [RiverGroupData.link, hmain]
  have hbuild := buildSystems_ok groups [] []
    (by intro g2 _ _ q hq; cases hq) hnd
  have hmem := link_mem_groupLinks hg hne hlink
  have hpred : (lookupSys (sysEntries groups)
      (Tributary.mk g.name (strip g.insert_target)
        (if (strip g.insert_point) = "" then "未指定" else (strip g.insert_point))
        g.location).insertion_river).isNone = true := by
    rw [Option.isNone_iff_eq_none, lookupSys_eq_none]
    intro q hq
    have hq1 : q.1 ∈ nonEmptyNames groups := by
      rw [← sysEntries_keys]
      exact List.mem_map_of_mem Prod.fst hq
    obtain ⟨g2, hg2, hg2n, hg2ne⟩ := mem_nonEmptyNames.mp hq1
    intro hq2
    have hg2ne2 : g2.name ≠ "" := by rw [hg2n]; exact hg2ne
    apply htar g2 hg2 hg2ne2
    rw [hg2n]
    exact hq2.symm
  obtain ⟨l2, hl2, hl2p⟩ := @find?_isSome_of_mem Tributary
    (fun l => (lookupSys (sysEntries groups) l.insertion_river).isNone)
    (groupLinks groups) _ hmem hpred
  refine ⟨l2.tributary_name, l2.insertion_river, ?_⟩
  simp only [on_save, hbuild, List.nil_append, hl2]

/-- Witness for C5: a main stem `MainA` plus a tributary `TribB` whose
target `GhostC` is not declared. -/
theorem claim_C5_witness :
    (nonEmptyNames [grpMainC5, grpTribC5]).Nodup ∧
    (∃ g ∈ [grpMainC5, grpTribC5], g.name ≠ "" ∧ g.is_main = false ∧
      ∀ g2 ∈ [grpMainC5, grpTribC5], g2.name ≠ "" →
        (strip g.insert_target) ≠ g2.name) ∧
    (∃ t r, on_save "逐日" [grpMainC5, grpTribC5] = SaveOutcome.dangling t r) :=
  ⟨by decide, by decide,
    claim_C5_dangling_before_cycle "逐日" [grpMainC5, grpTribC5]
      (by decide) (by decide)⟩

end Waterhy
